import Mathlib

/-
Verification of the core rename-planning logic of the cantrips repository.

Two scripts carry the logic the specification describes:

* src/audiobook-chapterise.py — chapter planning: `clean_filename`,
  `Splitinator._calculate_padding`, `Splitinator._make_filename`.
* src/rerename.py — bulk rename: `Renamer.calculate`, `Renamer.check`,
  `Renamer.execute`, `Renamer.rename`.

Strings are modelled as lists of Unicode code points (Lean `Char`), which
matches Python `str` indexing and slicing. Character classes (`\w`, `\s`,
`str.strip`) are modelled over their ASCII parts; every input appearing in
the claims is ASCII. Python floats appear only in chapter start/end offsets
(never inspected by the naming logic, modelled as `Rat`) and in
`math.log(n + 1, 10)`, modelled as the exact ceiling logarithm.
-/

namespace Cantrips

namespace Chapterise

/-- ASCII whitespace, the ASCII part of both Python `str.strip` and `\s`:
space, tab, newline, carriage return, vertical tab, form feed. -/
def isSpace (c : Char) : Bool :=
  c == ' ' || c == '\t' || c == '\n' || c == '\r' || c == Char.ofNat 11 || c == Char.ofNat 12

/-- ASCII part of the regex class `\w`: letters, digits, underscore. -/
def isWordChar (c : Char) : Bool :=
  c.isAlpha || c.isDigit || c == '_'

/-- The apostrophe character (code point 39). -/
def apos : Char := Char.ofNat 39

/-- Characters NOT replaced by the substitution
`re.sub(r"[^\w' .,()]", " ", string)` in `clean_filename`:
word characters, apostrophe, space, period, comma and parentheses. -/
def isAllowed (c : Char) : Bool :=
  isWordChar c || c == apos || c == ' ' || c == '.' || c == ',' || c == '(' || c == ')'

/-- Drop trailing ASCII whitespace (right half of Python `str.strip`). -/
def stripEnd (cs : List Char) : List Char :=
  ((cs.reverse).dropWhile isSpace).reverse

/-- Python `str.strip()`: drop leading and trailing whitespace. -/
def stripChars (cs : List Char) : List Char :=
  stripEnd (cs.dropWhile isSpace)

/-- Python `string.replace(":", " - ")`: each colon becomes space, hyphen,
space. -/
def replaceColon : List Char → List Char
  | [] => []
  | c :: cs => if c == ':' then ' ' :: '-' :: ' ' :: replaceColon cs else c :: replaceColon cs

/-- Python `re.sub(r"[^\w' .,()]", " ", string)`: every character outside the
allowed class becomes a single space. -/
def subIllegal (cs : List Char) : List Char :=
  cs.map (fun c => if isAllowed c then c else ' ')

/-- Worker for `re.sub(r"\s+", " ", string)`. The flag records whether the
previous character was whitespace (in which case further whitespace is
dropped rather than emitted). -/
def collapseAux : Bool → List Char → List Char
  | _, [] => []
  | prev, c :: cs =>
    if isSpace c then
      if prev then collapseAux true cs else ' ' :: collapseAux true cs
    else
      c :: collapseAux false cs

/-- Python `re.sub(r"\s+", " ", string)`: every maximal run of whitespace
becomes one space. -/
def collapseWS (cs : List Char) : List Char :=
  collapseAux false cs

/-- The body of `clean_filename` over code-point lists: strip, then colon to
" - ", then replace illegal characters, then compact whitespace runs. -/
def cleanChars (cs : List Char) : List Char :=
  collapseWS (subIllegal (replaceColon (stripChars cs)))

/-- src/audiobook-chapterise.py `clean_filename` (lines 79-101). -/
def clean_filename (filename : String) : String :=
  ⟨cleanChars filename.data⟩

/-- Python `str.strip()` as a `String` function. -/
def stripString (s : String) : String :=
  ⟨stripChars s.data⟩

/-- Decimal digits of `n`, most significant first, as numbers below 10.
Fuel-based to keep kernel reduction structural; `decDigits` supplies
sufficient fuel. -/
def decDigitsAux : Nat → Nat → List Nat
  | 0, _ => []
  | fuel + 1, n => if n < 10 then [n] else decDigitsAux fuel (n / 10) ++ [n % 10]

/-- Decimal digits of `n`, most significant first. -/
def decDigits (n : Nat) : List Nat :=
  decDigitsAux (n + 1) n

/-- Python `str(n)` for a natural number, as a code-point list. -/
def natToDec (n : Nat) : List Char :=
  (decDigits n).map Nat.digitChar

/-- Python format specifier `0>w`: right-align in width `w`, filling with
zeros on the left (no truncation when already wider). -/
def lpadZeros (w : Nat) (ds : List Char) : List Char :=
  List.replicate (w - ds.length) '0' ++ ds

/-- The zero-padded positional prefix `f"{n:0>{w}}"` used in
`Splitinator._make_filename`. -/
def paddedStr (w n : Nat) : String :=
  ⟨lpadZeros w (natToDec n)⟩

/-- Ceiling base-10 logarithm: the least `k` with `m ≤ 10 ^ k`, i.e. the
exact value of `math.ceil(math.log(m, 10))` for `m ≥ 1`. -/
def ceilLog10 (m : Nat) : Nat :=
  (((List.range (m + 1)).find? fun k => m ≤ 10 ^ k).getD 0)

/-- src/audiobook-chapterise.py `Splitinator._calculate_padding`
(lines 505-522): `max(2, ceil(log(max_value + 1, 10)))`, with the float
logarithm modelled as the exact ceiling logarithm. -/
def calculate_padding (max_value : Nat) : Nat :=
  max 2 (ceilLog10 (max_value + 1))

/-- Numeric value of a big-endian digit list (verification helper for the
lexicographic-sorting property of padded prefixes). -/
def valN : List Nat → Nat
  | [] => 0
  | d :: ds => d * 10 ^ ds.length + valN ds

/-- Two adjacent characters are acceptable after whitespace compaction
when they are not both whitespace. -/
def SpacedOk (a b : Char) : Prop :=
  isSpace a = false ∨ isSpace b = false

/-- A cleaned character list: any whitespace in it is a single plain
space. -/
def Tidy (cs : List Char) : Prop :=
  (∀ c ∈ cs, isSpace c = true → c = ' ') ∧ List.Chain' SpacedOk cs

/-- src/audiobook-chapterise.py `Chapter` (lines 323-330). Python field
`end` is `stop` here (`end` is a Lean keyword); the float offsets are
rationals, never inspected by the naming logic. -/
structure Chapter where
  start : Rat
  stop : Rat
  title : String

/-- src/audiobook-chapterise.py `Splitinator._make_filename`
(lines 524-545): `clean_filename(f"{index+1:0>{padding}}. {title}.{suffix}")`.
`padding` is the `Splitinator.padding` attribute. -/
def make_filename (padding index : Nat) (chapter : Chapter) (suffix : String := "mp3") : String :=
  clean_filename (paddedStr padding (index + 1) ++ ". " ++ chapter.title ++ "." ++ suffix)

end Chapterise

namespace Rerename

/-- src/rerename.py `Rename` (lines 115-124): one rename operation with the
provenance of its regex match. -/
structure Rename where
  old : String
  new : String
  match_start : Nat
  match_end : Nat
  replaced : String
deriving DecidableEq

/-- Outcome of one `re.search` + `match.expand(replace)` on a haystack:
the matched span (code-point indices) and the expanded replacement. The
compiled search pattern and replacement template of
`RenamerConfiguration` are modelled as one abstract function
`String → Option MatchResult`. -/
structure MatchResult where
  start : Nat
  stop : Nat
  replaced : String
deriving DecidableEq

/-- The `RenameError` raised by `Renamer.check` (lines 145-172), as data:
either "Existing entry would be overwritten" (with the target name) or
"Both a and b rename to t" (with both source names and the target). -/
inductive Conflict where
  | overwriteExisting (target : String)
  | duplicateTarget (first second target : String)
deriving DecidableEq

/-- A filesystem system call observable in a run: a read-only existence
check, or a rename (mutation). -/
inductive FsOp where
  | existsCheck (name : String)
  | renameOp (old new : String)
deriving DecidableEq

/-- The boolean options of src/rerename.py `RenamerConfiguration`
(lines 102-112). `search_regex`, `replace_template` and `ignore_case` are
absorbed into the abstract matcher passed alongside. -/
structure RenamerConfiguration where
  dry_run : Bool
  preserve_suffix : Bool
  show_all : Bool

/-- The state of the working folder: the names of its entries. -/
abbrev Folder := List String

/-- src/rerename.py `Renamer.check` (lines 145-172). Walks the renames in
order keeping `seen` (target name to source name, Python dict as an
association list); for each entry it first performs the read-only
existence check of the target, raising `overwriteExisting` when the target
is a real entry, then raises `duplicateTarget` when the target was already
produced. Returns the first conflict (the raised error) or `none`, paired
with the trace of filesystem operations performed. -/
def checkT (fs : Folder) : List Rename → List (String × String) → Option Conflict × List FsOp
  | [], _ => (none, [])
  | r :: rest, seen =>
    if fs.contains r.new then
      (some (Conflict.overwriteExisting r.new), [FsOp.existsCheck r.new])
    else
      match seen.lookup r.new with
      | some first => (some (Conflict.duplicateTarget first r.old r.new), [FsOp.existsCheck r.new])
      | none =>
        let rec_ := checkT fs rest ((r.new, r.old) :: seen)
        (rec_.1, FsOp.existsCheck r.new :: rec_.2)

/-- The conflicts `Renamer.check` reports in one run: the single raised
`RenameError`, or nothing when the plan is safe. -/
def reportedConflicts (fs : Folder) (renames : List Rename) : List Conflict :=
  match (checkT fs renames []).1 with
  | some c => [c]
  | none => []

/-- Modelled from the spec: the exhaustive conflict report the Safety
Checker section calls for ("report all detected conflicts ... rather than
the first only"), walking the whole Plan and collecting every
`OverwriteExisting` and `DuplicateTarget` conflict. No code in
src/rerename.py computes this; it is the yardstick the reporting claim
measures `Renamer.check` against. -/
def specExhaustiveConflicts (fs : Folder) : List Rename → List (String × String) → List Conflict
  | [], _ => []
  | r :: rest, seen =>
    (if fs.contains r.new then [Conflict.overwriteExisting r.new] else [])
      ++ (match seen.lookup r.new with
          | some first => [Conflict.duplicateTarget first r.old r.new]
          | none => [])
      ++ specExhaustiveConflicts fs rest
          (if (seen.lookup r.new).isSome then seen else (r.new, r.old) :: seen)

/-- src/rerename.py `Renamer.execute` (lines 203-216) as a trace of system
calls over an evolving folder: for each rename, re-check that the target
does not exist (abort when it does), then perform the rename syscall; the
syscall on a missing source fails and aborts the run. -/
def executeT (fs : Folder) : List Rename → List FsOp
  | [] => []
  | r :: rest =>
    if fs.contains r.new then
      [FsOp.existsCheck r.new]
    else if fs.contains r.old then
      FsOp.existsCheck r.new :: FsOp.renameOp r.old r.new
        :: executeT ((fs.erase r.old).concat r.new) rest
    else
      [FsOp.existsCheck r.new, FsOp.renameOp r.old r.new]

/-- The check-then-execute tail of src/rerename.py `Renamer.rename`
(lines 189-201): run `check`; on a `RenameError` abort (`SystemExit(2)`);
otherwise execute unless this is a dry run. The value is the trace of
filesystem operations of the run. -/
def checkAndExecute (fs : Folder) (renames : List Rename) (dryRun : Bool) : List FsOp :=
  match checkT fs renames [] with
  | (some _, tr) => tr
  | (none, tr) => tr ++ (if dryRun then [] else executeT fs renames)

/-- Python `entry.name.startswith(".")`. -/
def startsDot (name : String) : Bool :=
  match name.data with
  | c :: _ => c == '.'
  | [] => false

/-- Sorted directory listing (Python `sorted` on paths of one folder
compares their names as strings). -/
def sortStrings (l : List String) : List String :=
  l.mergeSort (fun a b => decide (a ≤ b))

/-- src/rerename.py `Renamer.list` (lines 260-277): directory entries,
hidden ones dropped unless `show_all`, sorted. -/
def listEntries (fs : Folder) (showAll : Bool) : List String :=
  sortStrings (if showAll then fs else fs.filter (fun n => !(startsDot n)))

/-- Python `pathlib.PurePath` stem/suffix split: the suffix starts at the
last dot, provided that dot is neither the first nor the last character;
otherwise the suffix is empty. -/
def pathSplit (name : String) : String × String :=
  match (name.data.reverse).findIdx? (fun c => c == '.') with
  | none => (name, "")
  | some k =>
    if 0 < name.data.length - 1 - k ∧ name.data.length - 1 - k < name.data.length - 1 then
      (⟨name.data.take (name.data.length - 1 - k)⟩, ⟨name.data.drop (name.data.length - 1 - k)⟩)
    else
      (name, "")

/-- Python `path.stem`. -/
def pathStem (name : String) : String := (pathSplit name).1

/-- Python `path.suffix`. -/
def pathSuffix (name : String) : String := (pathSplit name).2

/-- The new name built at src/rerename.py line 319:
`haystack[:start] + replaced + haystack[end:] + suffix`. -/
def newName (haystack suffix : String) (m : MatchResult) : String :=
  ⟨haystack.data.take m.start ++ m.replaced.data ++ haystack.data.drop m.stop ++ suffix.data⟩

/-- src/rerename.py `Renamer.calculate` (lines 279-326) with the compiled
search-and-expand modelled by `M`: for each entry, search the haystack
(the stem when suffixes are preserved, the whole name otherwise); no match
excludes the entry, a match whose new name equals the current name is
skipped, and every other match yields a `Rename` with the match span and
expanded replacement as provenance. -/
def calculate (M : String → Option MatchResult) (preserveSuffix : Bool) :
    List String → List Rename
  | [] => []
  | name :: rest =>
    match M (if preserveSuffix then pathStem name else name) with
    | none => calculate M preserveSuffix rest
    | some m =>
      if name = newName (if preserveSuffix then pathStem name else name)
          (if preserveSuffix then pathSuffix name else "") m then
        calculate M preserveSuffix rest
      else
        ⟨name,
         newName (if preserveSuffix then pathStem name else name)
           (if preserveSuffix then pathSuffix name else "") m,
         m.start, m.stop, m.replaced⟩ :: calculate M preserveSuffix rest

/-- src/rerename.py `Renamer.rename` (lines 174-201) as a trace of
filesystem operations: list the folder, calculate the plan, check it, and
execute it only when the check passed and this is not a dry run. -/
def renamePipeline (fs : Folder) (M : String → Option MatchResult)
    (cfg : RenamerConfiguration) : List FsOp :=
  checkAndExecute fs (calculate M cfg.preserve_suffix (listEntries fs cfg.show_all)) cfg.dry_run

/-- Attempt of the pattern `IMG_(\d+)` at the start of the haystack
suffix: the literal `IMG_` followed by one or more digits taken greedily.
Returns the match length together with the digits captured by group 1. -/
def tryMatchAt : List Char → Option (Nat × List Char)
  | 'I' :: 'M' :: 'G' :: '_' :: rest =>
    if (rest.takeWhile Char.isDigit).isEmpty then none
    else some (4 + (rest.takeWhile Char.isDigit).length, rest.takeWhile Char.isDigit)
  | _ => none

/-- `re.search` scan for `IMG_(\d+)`: try each position left to right;
`i` is the index of the current suffix in the original haystack. The
expansion of the template `Photo_\1` is `Photo_` followed by group 1. -/
def imgSearch (i : Nat) : List Char → Option MatchResult
  | [] => none
  | c :: cs =>
    match tryMatchAt (c :: cs) with
    | some lds => some ⟨i, i + lds.1, ⟨'P' :: 'h' :: 'o' :: 't' :: 'o' :: '_' :: lds.2⟩⟩
    | none => imgSearch (i + 1) cs

/-- The concrete matcher of the claims: compiled pattern `IMG_(\d+)` with
replacement template `Photo_\1`, under Python `re.search` semantics
(leftmost match, greedy `\d+`). -/
def imgMatcher (s : String) : Option MatchResult :=
  imgSearch 0 s.data

/-- Concrete plan: two entries renaming to the same target `z.txt`
(the spec's Example 3). -/
def planDupTargets : List Rename :=
  [⟨"x.txt", "z.txt", 0, 0, ""⟩, ⟨"y.txt", "z.txt", 0, 0, ""⟩]

/-- Concrete plan: one entry whose target `w.txt` is a pre-existing
folder entry distinct from its source. -/
def planOverwrite : List Rename :=
  [⟨"c.txt", "w.txt", 0, 0, ""⟩]

/-- Concrete plan holding two independent duplicate-target conflicts
(`z` twice and `w` twice). -/
def planTwoConflicts : List Rename :=
  [⟨"x", "z", 0, 0, ""⟩, ⟨"y", "z", 0, 0, ""⟩, ⟨"u", "w", 0, 0, ""⟩, ⟨"v", "w", 0, 0, ""⟩]

/-- Concrete plan whose last entry targets the pre-existing `w.txt` while
two earlier entries collide on `z`. -/
def planMaskedOverwrite : List Rename :=
  [⟨"a", "z", 0, 0, ""⟩, ⟨"b", "z", 0, 0, ""⟩, ⟨"c.txt", "w.txt", 0, 0, ""⟩]

end Rerename

namespace Chapterise

theorem isAllowed_of_mem_subIllegal {cs : List Char} {c : Char} (h : c ∈ subIllegal cs) :
    isAllowed c = true := by
  rcases List.mem_map.1 h with ⟨a, _, rfl⟩
  by_cases ha : isAllowed a = true
  · rw [if_pos ha]; exact ha
  · rw [if_neg ha]; decide

theorem collapseAux_nil (b : Bool) : collapseAux b [] = [] := rfl

theorem collapseAux_space_true {d : Char} (ds : List Char) (hd : isSpace d = true) :
    collapseAux true (d :: ds) = collapseAux true ds := by
  simp [collapseAux, hd]

theorem collapseAux_space_false {d : Char} (ds : List Char) (hd : isSpace d = true) :
    collapseAux false (d :: ds) = ' ' :: collapseAux true ds := by
  simp [collapseAux, hd]

theorem collapseAux_nonspace {d : Char} (ds : List Char) (b : Bool) (hd : isSpace d = false) :
    collapseAux b (d :: ds) = d :: collapseAux false ds := by
  simp [collapseAux, hd]

theorem mem_collapseAux : ∀ (cs : List Char) (b : Bool) (c : Char),
    c ∈ collapseAux b cs → c = ' ' ∨ c ∈ cs := by
  intro cs
  induction cs with
  | nil => intro b c h; rw [collapseAux_nil] at h; cases h
  | cons d ds ih =>
    intro b c h
    cases hd : isSpace d with
    | true =>
      cases b with
      | true =>
        rw [collapseAux_space_true ds hd] at h
        rcases ih true c h with h1 | h1
        · exact Or.inl h1
        · exact Or.inr (List.mem_cons_of_mem _ h1)
      | false =>
        rw [collapseAux_space_false ds hd] at h
        rcases List.mem_cons.1 h with h1 | h1
        · exact Or.inl h1
        · rcases ih true c h1 with h2 | h2
          · exact Or.inl h2
          · exact Or.inr (List.mem_cons_of_mem _ h2)
    | false =>
      rw [collapseAux_nonspace ds b hd] at h
      rcases List.mem_cons.1 h with h1 | h1
      · exact Or.inr (by rw [h1]; exact List.mem_cons_self _ _)
      · rcases ih false c h1 with h2 | h2
        · exact Or.inl h2
        · exact Or.inr (List.mem_cons_of_mem _ h2)

theorem collapseAux_tidy : ∀ (cs : List Char) (b : Bool),
    Tidy (collapseAux b cs)
      ∧ (b = true → ∀ c, (collapseAux b cs).head? = some c → isSpace c = false) := by
  intro cs
  induction cs with
  | nil =>
    intro b
    rw [collapseAux_nil]
    refine ⟨⟨?_, ?_⟩, ?_⟩
    · intro c hc; cases hc
    · exact List.chain'_nil
    · intro _ c hc; cases hc
  | cons d ds ih =>
    intro b
    cases hd : isSpace d with
    | true =>
      cases b with
      | true =>
        rw [collapseAux_space_true ds hd]
        exact ⟨(ih true).1, fun _ => (ih true).2 rfl⟩
      | false =>
        rw [collapseAux_space_false ds hd]
        refine ⟨⟨?_, ?_⟩, ?_⟩
        · intro c hc hsp
          rcases List.mem_cons.1 hc with h1 | h1
          · exact h1
          · exact (ih true).1.1 c h1 hsp
        · rw [List.chain'_cons']
          refine ⟨?_, (ih true).1.2⟩
          intro y hy
          exact Or.inr ((ih true).2 rfl y hy)
        · intro hb; cases hb
    | false =>
      rw [collapseAux_nonspace ds b hd]
      refine ⟨⟨?_, ?_⟩, ?_⟩
      · intro c hc hsp
        rcases List.mem_cons.1 hc with h1 | h1
        · subst h1; rw [hsp] at hd; cases hd
        · exact (ih false).1.1 c h1 hsp
      · rw [List.chain'_cons']
        refine ⟨?_, (ih false).1.2⟩
        intro y _
        exact Or.inl hd
      · intro _ c hc
        simp only [List.head?_cons, Option.some.injEq] at hc
        subst hc
        exact hd

theorem collapseAux_id : ∀ (cs : List Char),
    (∀ c ∈ cs, isSpace c = true → c = ' ') → List.Chain' SpacedOk cs →
    collapseAux false cs = cs
      ∧ ((∀ c, cs.head? = some c → isSpace c = false) → collapseAux true cs = cs) := by
  intro cs
  induction cs with
  | nil => intro _ _; exact ⟨rfl, fun _ => rfl⟩
  | cons d ds ih =>
    intro hmem hch
    obtain ⟨hhd, hch'⟩ := List.chain'_cons'.1 hch
    have ihds := ih (fun c hc => hmem c (List.mem_cons_of_mem _ hc)) hch'
    cases hd : isSpace d with
    | true =>
      have hd' : d = ' ' := hmem d (List.mem_cons_self _ _) hd
      constructor
      · have hds : ∀ c, ds.head? = some c → isSpace c = false := by
          intro c hc
          rcases hhd c hc with h1 | h1
          · rw [hd] at h1; cases h1
          · exact h1
        rw [collapseAux_space_false ds hd, ihds.2 hds, hd']
      · intro hhead
        have := hhead d rfl
        rw [hd] at this; cases this
    | false =>
      constructor
      · rw [collapseAux_nonspace ds false hd, ihds.1]
      · intro _
        rw [collapseAux_nonspace ds true hd, ihds.1]

theorem chain'_dropWhile {α : Type} {R : α → α → Prop} (p : α → Bool) :
    ∀ (cs : List α), List.Chain' R cs → List.Chain' R (cs.dropWhile p) := by
  intro cs h
  induction cs with
  | nil => exact h
  | cons d ds ih =>
    rw [List.dropWhile_cons]
    by_cases hd : p d = true
    · rw [if_pos hd]
      exact ih h.tail
    · rw [if_neg hd]
      exact h

theorem mem_dropWhile {α : Type} {p : α → Bool} {cs : List α} {c : α}
    (h : c ∈ cs.dropWhile p) : c ∈ cs := by
  induction cs with
  | nil => exact h
  | cons d ds ih =>
    rw [List.dropWhile_cons] at h
    by_cases hd : p d = true
    · rw [if_pos hd] at h
      exact List.mem_cons_of_mem _ (ih h)
    · rw [if_neg hd] at h
      exact h

theorem mem_stripChars {cs : List Char} {c : Char} (h : c ∈ stripChars cs) : c ∈ cs := by
  unfold stripChars stripEnd at h
  rw [List.mem_reverse] at h
  have h1 := mem_dropWhile h
  rw [List.mem_reverse] at h1
  exact mem_dropWhile h1

theorem chain'_stripEnd {cs : List Char} (h : List.Chain' SpacedOk cs) :
    List.Chain' SpacedOk (stripEnd cs) := by
  unfold stripEnd
  rw [List.chain'_reverse]
  apply chain'_dropWhile
  exact (List.chain'_reverse).2 (List.Chain'.imp (fun a b hab => hab) h)

theorem tidy_stripChars {cs : List Char} (h : Tidy cs) : Tidy (stripChars cs) := by
  refine ⟨?_, ?_⟩
  · intro c hc hsp
    exact h.1 c (mem_stripChars hc) hsp
  · unfold stripChars
    exact chain'_stripEnd (chain'_dropWhile _ _ h.2)

theorem replaceColon_eq_self {cs : List Char} (h : ∀ c ∈ cs, (c == ':') = false) :
    replaceColon cs = cs := by
  induction cs with
  | nil => rfl
  | cons d ds ih =>
    have hd := h d (List.mem_cons_self _ _)
    have ih' := ih (fun c hc => h c (List.mem_cons_of_mem _ hc))
    simp [replaceColon, hd, ih']

theorem subIllegal_eq_self {cs : List Char} (h : ∀ c ∈ cs, isAllowed c = true) :
    subIllegal cs = cs := by
  induction cs with
  | nil => rfl
  | cons d ds ih =>
    have hd := h d (List.mem_cons_self _ _)
    simp only [subIllegal, List.map_cons, hd, if_true]
    have := ih (fun c hc => h c (List.mem_cons_of_mem _ hc))
    unfold subIllegal at this
    rw [this]

theorem allowed_ne_colon {c : Char} (h : isAllowed c = true) : (c == ':') = false := by
  cases hq : (c == ':')
  · rfl
  · have : c = ':' := beq_iff_eq.1 hq
    subst this
    exact absurd h (by decide)

theorem allowed_space_char {c : Char} (hall : isAllowed c = true) (hsp : isSpace c = true) :
    c = ' ' := by
  simp only [isSpace, Bool.or_eq_true, beq_iff_eq] at hsp
  rcases hsp with ((((h | h) | h) | h) | h) | h
  · exact h
  · subst h; exact absurd hall (by decide)
  · subst h; exact absurd hall (by decide)
  · subst h; exact absurd hall (by decide)
  · subst h; exact absurd hall (by decide)
  · subst h; exact absurd hall (by decide)

theorem cleanChars_allowed (cs : List Char) : ∀ c ∈ cleanChars cs, isAllowed c = true := by
  intro c hc
  have hc' : c ∈ collapseAux false (subIllegal (replaceColon (stripChars cs))) := hc
  rcases mem_collapseAux _ false c hc' with h1 | h1
  · subst h1; decide
  · exact isAllowed_of_mem_subIllegal h1

theorem cleanChars_tidy (cs : List Char) : Tidy (cleanChars cs) :=
  (collapseAux_tidy (subIllegal (replaceColon (stripChars cs))) false).1

theorem cleanChars_cleanChars (cs : List Char) :
    cleanChars (cleanChars cs) = stripChars (cleanChars cs) := by
  have hall := cleanChars_allowed cs
  have htidy := cleanChars_tidy cs
  show collapseWS (subIllegal (replaceColon (stripChars (cleanChars cs))))
      = stripChars (cleanChars cs)
  have h1 : ∀ c ∈ stripChars (cleanChars cs), isAllowed c = true :=
    fun c hc => hall c (mem_stripChars hc)
  rw [replaceColon_eq_self (fun c hc => allowed_ne_colon (h1 c hc))]
  rw [subIllegal_eq_self h1]
  have htidy' : Tidy (stripChars (cleanChars cs)) := tidy_stripChars htidy
  exact (collapseAux_id _ htidy'.1 htidy'.2).1

theorem valN_lt_pow {ds : List Nat} (h : ∀ d ∈ ds, d < 10) : valN ds < 10 ^ ds.length := by
  induction ds with
  | nil => simp [valN]
  | cons d ds ih =>
    have hd : d ≤ 9 := by have := h d (List.mem_cons_self _ _); omega
    have ihv := ih (fun x hx => h x (List.mem_cons_of_mem _ hx))
    show d * 10 ^ ds.length + valN ds < 10 ^ (ds.length + 1)
    have h1 : d * 10 ^ ds.length ≤ 9 * 10 ^ ds.length :=
      Nat.mul_le_mul_right _ hd
    have h2 : 10 ^ (ds.length + 1) = 10 * 10 ^ ds.length := by ring
    omega

theorem digitChar_lt_digitChar :
    ∀ a b : Fin 10, a.val < b.val → Nat.digitChar a.val < Nat.digitChar b.val := by decide

theorem digitChar_not_lt_self : ∀ a : Fin 10, ¬ Nat.digitChar a.val < Nat.digitChar a.val := by
  decide

theorem lex_of_valN_lt : ∀ (ds es : List Nat), ds.length = es.length →
    (∀ d ∈ ds, d < 10) → (∀ e ∈ es, e < 10) → valN ds < valN es →
    List.Lex (fun a b : Char => a < b) (ds.map Nat.digitChar) (es.map Nat.digitChar) := by
  intro ds
  induction ds with
  | nil =>
    intro es hlen _ _ hv
    cases es with
    | nil => exact absurd hv (by simp [valN])
    | cons e es => exact absurd hlen (by simp)
  | cons d ds ih =>
    intro es hlen hds hes hv
    cases es with
    | nil => exact absurd hlen (by simp)
    | cons e es' =>
      have hlen' : ds.length = es'.length := by simpa using hlen
      have hd10 : d < 10 := hds d (List.mem_cons_self _ _)
      have he10 : e < 10 := hes e (List.mem_cons_self _ _)
      rcases Nat.lt_trichotomy d e with hlt | heq | hgt
      · exact List.Lex.rel (digitChar_lt_digitChar ⟨d, hd10⟩ ⟨e, he10⟩ hlt)
      · subst heq
        refine List.Lex.cons ?_
        apply ih es' hlen' (fun x hx => hds x (List.mem_cons_of_mem _ hx))
          (fun x hx => hes x (List.mem_cons_of_mem _ hx))
        have hv1 : valN (d :: ds) = d * 10 ^ ds.length + valN ds := rfl
        have hv2 : valN (d :: es') = d * 10 ^ es'.length + valN es' := rfl
        rw [hv1, hv2, hlen'] at hv
        omega
      · exfalso
        have h1 : valN es' < 10 ^ es'.length :=
          valN_lt_pow (fun x hx => hes x (List.mem_cons_of_mem _ hx))
        have hv1 : valN (d :: ds) = d * 10 ^ ds.length + valN ds := rfl
        have hv2 : valN (e :: es') = e * 10 ^ es'.length + valN es' := rfl
        have h2 : (e + 1) * 10 ^ es'.length ≤ d * 10 ^ es'.length :=
          Nat.mul_le_mul_right _ hgt
        rw [hv1, hv2, hlen'] at hv
        have h3 : (e + 1) * 10 ^ es'.length = e * 10 ^ es'.length + 10 ^ es'.length := by ring
        omega

theorem valN_replicate_zero (k : Nat) (ds : List Nat) :
    valN (List.replicate k 0 ++ ds) = valN ds := by
  induction k with
  | zero => rfl
  | succ k ih =>
    show valN (0 :: (List.replicate k 0 ++ ds)) = valN ds
    show 0 * 10 ^ (List.replicate k 0 ++ ds).length + valN (List.replicate k 0 ++ ds) = valN ds
    rw [ih]
    omega

theorem valN_append_single : ∀ (xs : List Nat) (d : Nat), valN (xs ++ [d]) = 10 * valN xs + d := by
  intro xs d
  induction xs with
  | nil => simp [valN]
  | cons x xs ih =>
    show x * 10 ^ (xs ++ [d]).length + valN (xs ++ [d]) = 10 * (x * 10 ^ xs.length + valN xs) + d
    rw [ih, List.length_append, List.length_singleton]
    have hx : x * 10 ^ (xs.length + 1) = 10 * (x * 10 ^ xs.length) := by ring
    omega

theorem decDigitsAux_spec : ∀ (fuel n : Nat), n < fuel →
    (∀ d ∈ decDigitsAux fuel n, d < 10) ∧ valN (decDigitsAux fuel n) = n ∧
      ∀ k, 0 < k → n < 10 ^ k → (decDigitsAux fuel n).length ≤ k := by
  intro fuel
  induction fuel with
  | zero => intro n h; exact absurd h (by omega)
  | succ fuel ih =>
    intro n hn
    by_cases h10 : n < 10
    · refine ⟨?_, ?_, ?_⟩
      · intro d hd
        rw [decDigitsAux, if_pos h10] at hd
        rcases List.mem_singleton.1 hd with rfl
        exact h10
      · rw [decDigitsAux, if_pos h10]
        show n * 10 ^ (0 : Nat) + 0 = n
        omega
      · intro k hk _
        rw [decDigitsAux, if_pos h10]
        simpa using hk
    · have hdiv : n / 10 < n := Nat.div_lt_self (by omega) (by omega)
      have hrec : n / 10 < fuel := by omega
      obtain ⟨ihmem, ihval, ihlen⟩ := ih (n / 10) hrec
      rw [decDigitsAux, if_neg h10]
      refine ⟨?_, ?_, ?_⟩
      · intro d hd
        rcases List.mem_append.1 hd with h1 | h1
        · exact ihmem d h1
        · rcases List.mem_singleton.1 h1 with rfl
          omega
      · rw [valN_append_single, ihval]
        omega
      · intro k hk hnk
        have hk2 : 2 ≤ k := by
          by_contra hcon
          have : k = 1 := by omega
          subst this
          simp at hnk
          omega
        have hd1 : n / 10 < 10 ^ (k - 1) := by
          rw [Nat.div_lt_iff_lt_mul (by omega)]
          have hpow : 10 ^ (k - 1) * 10 = 10 ^ (k - 1 + 1) := by ring
          rw [hpow]
          have hk1 : k - 1 + 1 = k := by omega
          rw [hk1]
          exact hnk
        have := ihlen (k - 1) (by omega) hd1
        rw [List.length_append, List.length_singleton]
        omega

theorem decDigits_mem {n : Nat} : ∀ d ∈ decDigits n, d < 10 :=
  (decDigitsAux_spec (n + 1) n (by omega)).1

theorem decDigits_val (n : Nat) : valN (decDigits n) = n :=
  (decDigitsAux_spec (n + 1) n (by omega)).2.1

theorem decDigits_length {n k : Nat} (hk : 0 < k) (hn : n < 10 ^ k) :
    (decDigits n).length ≤ k :=
  (decDigitsAux_spec (n + 1) n (by omega)).2.2 k hk hn

theorem lpadZeros_eq_map (L m : Nat) :
    lpadZeros L (natToDec m)
      = (List.replicate (L - (decDigits m).length) 0 ++ decDigits m).map Nat.digitChar := by
  rw [List.map_append, List.map_replicate]
  unfold lpadZeros natToDec
  rw [List.length_map]
  rfl

theorem paddedStr_lt {L a b : Nat} (hL : 0 < L) (hab : a < b) (hb : b < 10 ^ L) :
    paddedStr L a < paddedStr L b := by
  rw [String.lt_iff_toList_lt]
  suffices h : List.Lex (fun a b : Char => a < b)
      (lpadZeros L (natToDec a)) (lpadZeros L (natToDec b)) by
    exact h
  have ha : a < 10 ^ L := lt_trans hab hb
  have hla : (decDigits a).length ≤ L := decDigits_length hL ha
  have hlb : (decDigits b).length ≤ L := decDigits_length hL hb
  rw [lpadZeros_eq_map, lpadZeros_eq_map]
  apply lex_of_valN_lt
  · rw [List.length_append, List.length_append, List.length_replicate,
      List.length_replicate]
    omega
  · intro d hd
    rcases List.mem_append.1 hd with h1 | h1
    · rcases List.eq_of_mem_replicate h1 with rfl
      omega
    · exact decDigits_mem d h1
  · intro d hd
    rcases List.mem_append.1 hd with h1 | h1
    · rcases List.eq_of_mem_replicate h1 with rfl
      omega
    · exact decDigits_mem d h1
  · rw [valN_replicate_zero, valN_replicate_zero, decDigits_val, decDigits_val]
    exact hab

theorem le_pow_ceilLog10 (m : Nat) : m ≤ 10 ^ ceilLog10 m := by
  unfold ceilLog10
  cases hf : (List.range (m + 1)).find? (fun k => decide (m ≤ 10 ^ k)) with
  | none =>
    exfalso
    have hm : m ∈ List.range (m + 1) := List.mem_range.2 (by omega)
    have := List.find?_eq_none.1 hf m hm
    apply this
    have : m ≤ 10 ^ m := le_of_lt (Nat.lt_pow_self (by omega) m)
    simpa using this
  | some k =>
    have hp := List.find?_some hf
    simp only [decide_eq_true_eq] at hp
    simpa [hf] using hp

set_option maxRecDepth 100000 in
/-- C5, counterexample: `_make_filename` does not synthesize a
"Chapter ordinal" title for an all-digit chapter title. At padding 2, 0-based
index 6 and title "007" it does not produce "07. Chapter 7.mp3". -/
theorem make_filename_no_chapter_synthesis :
    make_filename 2 6 ⟨0, 0, "007"⟩ "mp3" ≠ "07. Chapter 7.mp3" := by decide

set_option maxRecDepth 100000 in
/-- C5, amended: `_make_filename` uses the supplied chapter title verbatim,
with no substitution for empty or all-digit titles; the title "007" at
0-based index 6 with padding 2 yields the target name "07. 007.mp3". -/
theorem make_filename_uses_title_verbatim :
    make_filename 2 6 ⟨0, 0, "007"⟩ "mp3" = "07. 007.mp3" := by decide

set_option maxRecDepth 100000 in
/-- C6, counterexample: `clean_filename` applied to
"Part One: The Beginning!" does not return "Part One - The Beginning".
The hyphen introduced for the colon is itself outside the allowed character
class of the later substitution and collapses to a space, and the space
substituted for the final "!" survives because stripping happens first. -/
theorem clean_filename_example_cex :
    clean_filename "Part One: The Beginning!" ≠ "Part One - The Beginning" := by decide

set_option maxRecDepth 100000 in
/-- C6, amended: `clean_filename` strips, replaces ":" with " - ", replaces
every character outside the allowed class (including the just-introduced
hyphen) with a space, and collapses whitespace runs; on
"Part One: The Beginning!" this returns exactly "Part One The Beginning "
(with a trailing space). -/
theorem clean_filename_example :
    clean_filename "Part One: The Beginning!" = "Part One The Beginning " := by decide

set_option maxRecDepth 100000 in
/-- C7, counterexample: `clean_filename` is not idempotent. On "!" one
application yields " " and a second application yields "". -/
theorem clean_filename_not_idempotent :
    clean_filename (clean_filename "!") ≠ clean_filename "!" := by decide

/-- C7, amended: a second application of `clean_filename` only strips the
boundary whitespace a first application can leave behind: for every string
`s`, `clean_filename (clean_filename s)` equals `clean_filename s` with
leading and trailing whitespace removed (so sanitization is idempotent
exactly on outputs without boundary whitespace). -/
theorem clean_filename_twice (s : String) :
    clean_filename (clean_filename s) = stripString (clean_filename s) := by
  show (⟨cleanChars (cleanChars s.data)⟩ : String) = ⟨stripChars (cleanChars s.data)⟩
  rw [cleanChars_cleanChars]

/-- C8: for every non-empty input sequence the padding width computed by
`_calculate_padding` satisfies `2 ≤ padding` and `item_count < 10 ^ padding`
(there is no `add_index` in the code: the `--add` option is commented out,
so `add_index = 0` throughout), and consequently the zero-padded positional
prefixes of all ordinals up to `item_count` sort lexicographically in the
same order as numerically. -/
theorem calculate_padding_bounds_and_sorts (n : Nat) (hn : 0 < n) :
    2 ≤ calculate_padding n ∧ n < 10 ^ calculate_padding n ∧
      ∀ i j : Nat, i < j → j ≤ n →
        paddedStr (calculate_padding n) i < paddedStr (calculate_padding n) j := by
  have h2 : 2 ≤ calculate_padding n := Nat.le_max_left 2 _
  have hlt : n < 10 ^ calculate_padding n := by
    have h1 : n + 1 ≤ 10 ^ ceilLog10 (n + 1) := le_pow_ceilLog10 (n + 1)
    have hmono : 10 ^ ceilLog10 (n + 1) ≤ 10 ^ calculate_padding n :=
      Nat.pow_le_pow_right (by omega) (Nat.le_max_right 2 _)
    omega
  refine ⟨h2, hlt, ?_⟩
  intro i j hij hj
  have hn' := hn
  exact paddedStr_lt (by omega) hij (by omega)

/-- Witness for C8 at the concrete input 3: padding is at least 2,
exceeds the item count as a power of 10, and the prefixes of ordinals 1 and
2 sort in numeric order. -/
theorem calculate_padding_bounds_and_sorts_witness :
    2 ≤ calculate_padding 3 ∧ 3 < 10 ^ calculate_padding 3 ∧
      paddedStr (calculate_padding 3) 1 < paddedStr (calculate_padding 3) 2 :=
  ⟨(calculate_padding_bounds_and_sorts 3 (by decide)).1,
   (calculate_padding_bounds_and_sorts 3 (by decide)).2.1,
   (calculate_padding_bounds_and_sorts 3 (by decide)).2.2 1 2 (by decide) (by decide)⟩

end Chapterise

namespace Rerename

theorem checkT_nil (fs : Folder) (seen : List (String × String)) :
    checkT fs [] seen = (none, []) := rfl

theorem checkT_cons_overwrite {fs : Folder} {r : Rename} (rest : List Rename)
    (seen : List (String × String)) (h : fs.contains r.new = true) :
    checkT fs (r :: rest) seen
      = (some (Conflict.overwriteExisting r.new), [FsOp.existsCheck r.new]) := by
  simp only [checkT]
  rw [if_pos h]

theorem checkT_cons_dup {fs : Folder} {r : Rename} {seen : List (String × String)}
    {first : String} (rest : List Rename) (h : fs.contains r.new = false)
    (hl : seen.lookup r.new = some first) :
    checkT fs (r :: rest) seen
      = (some (Conflict.duplicateTarget first r.old r.new), [FsOp.existsCheck r.new]) := by
  have h' : ¬ fs.contains r.new = true := by rw [h]; exact Bool.false_ne_true
  simp only [checkT]
  rw [if_neg h', hl]

theorem checkT_cons_ok {fs : Folder} {r : Rename} {seen : List (String × String)}
    (rest : List Rename) (h : fs.contains r.new = false) (hl : seen.lookup r.new = none) :
    checkT fs (r :: rest) seen
      = ((checkT fs rest ((r.new, r.old) :: seen)).1,
         FsOp.existsCheck r.new :: (checkT fs rest ((r.new, r.old) :: seen)).2) := by
  have h' : ¬ fs.contains r.new = true := by rw [h]; exact Bool.false_ne_true
  simp only [checkT]
  rw [if_neg h', hl]

theorem checkT_trace_reads (fs : Folder) : ∀ (rs : List Rename) (seen : List (String × String)),
    ∀ op ∈ (checkT fs rs seen).2, ∃ n, op = FsOp.existsCheck n := by
  intro rs
  induction rs with
  | nil => intro seen op hop; rw [checkT_nil] at hop; cases hop
  | cons r rest ih =>
    intro seen op hop
    cases hc : fs.contains r.new with
    | true =>
      rw [checkT_cons_overwrite rest seen hc] at hop
      rcases List.mem_singleton.1 hop with rfl
      exact ⟨r.new, rfl⟩
    | false =>
      cases hl : seen.lookup r.new with
      | some first =>
        rw [checkT_cons_dup rest hc hl] at hop
        rcases List.mem_singleton.1 hop with rfl
        exact ⟨r.new, rfl⟩
      | none =>
        rw [checkT_cons_ok rest hc hl] at hop
        rcases List.mem_cons.1 hop with rfl | hop'
        · exact ⟨r.new, rfl⟩
        · exact ih _ op hop'

theorem checkT_none_sound (fs : Folder) : ∀ (rs : List Rename) (seen : List (String × String)),
    (checkT fs rs seen).1 = none →
    (∀ r ∈ rs, fs.contains r.new = false)
      ∧ List.Pairwise (fun a b : Rename => a.new ≠ b.new) rs
      ∧ (∀ r ∈ rs, seen.lookup r.new = none) := by
  intro rs
  induction rs with
  | nil =>
    intro seen _
    refine ⟨?_, List.Pairwise.nil, ?_⟩
    · intro r hr; cases hr
    · intro r hr; cases hr
  | cons r rest ih =>
    intro seen hv
    cases hc : fs.contains r.new with
    | true =>
      rw [checkT_cons_overwrite rest seen hc] at hv
      cases hv
    | false =>
      cases hl : seen.lookup r.new with
      | some first =>
        rw [checkT_cons_dup rest hc hl] at hv
        cases hv
      | none =>
        rw [checkT_cons_ok rest hc hl] at hv
        obtain ⟨h1, h2, h3⟩ := ih _ hv
        have hne : ∀ x ∈ rest, x.new ≠ r.new := by
          intro x hx heq
          have hlx := h3 x hx
          rw [List.lookup_cons] at hlx
          have hbe : (x.new == r.new) = true := beq_iff_eq.2 heq
          rw [hbe] at hlx
          cases hlx
        refine ⟨?_, ?_, ?_⟩
        · intro x hx
          rcases List.mem_cons.1 hx with rfl | hx'
          · exact hc
          · exact h1 x hx'
        · exact List.Pairwise.cons (fun x hx => (hne x hx).symm) h2
        · intro x hx
          rcases List.mem_cons.1 hx with rfl | hx'
          · exact hl
          · have hlx := h3 x hx'
            rw [List.lookup_cons] at hlx
            cases hbe : (x.new == r.new) with
            | true => rw [hbe] at hlx; cases hlx
            | false => rw [hbe] at hlx; exact hlx

theorem checkT_some_overwrite (fs : Folder) :
    ∀ (rs : List Rename) (seen : List (String × String)) (t : String),
    (checkT fs rs seen).1 = some (Conflict.overwriteExisting t) →
    fs.contains t = true ∧ ∃ r ∈ rs, r.new = t := by
  intro rs
  induction rs with
  | nil => intro seen t hv; cases hv
  | cons r rest ih =>
    intro seen t hv
    cases hc : fs.contains r.new with
    | true =>
      rw [checkT_cons_overwrite rest seen hc] at hv
      simp only [Option.some.injEq, Conflict.overwriteExisting.injEq] at hv
      subst hv
      exact ⟨hc, r, List.mem_cons_self _ _, rfl⟩
    | false =>
      cases hl : seen.lookup r.new with
      | some first =>
        rw [checkT_cons_dup rest hc hl] at hv
        cases hv
      | none =>
        rw [checkT_cons_ok rest hc hl] at hv
        obtain ⟨h1, r', hr', h2⟩ := ih _ t hv
        exact ⟨h1, r', List.mem_cons_of_mem _ hr', h2⟩

theorem checkT_some_dup (fs : Folder) :
    ∀ (rs : List Rename) (seen : List (String × String)) (a b t : String),
    (checkT fs rs seen).1 = some (Conflict.duplicateTarget a b t) →
    ∃ pre r2 post, rs = pre ++ r2 :: post ∧ r2.old = b ∧ r2.new = t
      ∧ (seen.lookup t = some a
          ∨ ∃ pre1 r1 mid, pre = pre1 ++ r1 :: mid ∧ r1.old = a ∧ r1.new = t) := by
  intro rs
  induction rs with
  | nil => intro seen a b t hv; cases hv
  | cons r rest ih =>
    intro seen a b t hv
    cases hc : fs.contains r.new with
    | true =>
      rw [checkT_cons_overwrite rest seen hc] at hv
      cases hv
    | false =>
      cases hl : seen.lookup r.new with
      | some first =>
        rw [checkT_cons_dup rest hc hl] at hv
        simp only [Option.some.injEq, Conflict.duplicateTarget.injEq] at hv
        obtain ⟨ha, hb, ht⟩ := hv
        refine ⟨[], r, rest, rfl, hb, ht, Or.inl ?_⟩
        rw [ht] at hl
        rw [hl, ha]
      | none =>
        rw [checkT_cons_ok rest hc hl] at hv
        obtain ⟨pre', r2, post', hdec, hb, ht, hdisj⟩ := ih _ a b t hv
        refine ⟨r :: pre', r2, post', by rw [hdec]; rfl, hb, ht, ?_⟩
        rcases hdisj with hlook | ⟨pre1, r1, mid, hpre, ha1, ht1⟩
        · rw [List.lookup_cons] at hlook
          cases hbe : (t == r.new) with
          | true =>
            rw [hbe] at hlook
            have htr : t = r.new := beq_iff_eq.1 hbe
            simp only [Option.some.injEq] at hlook
            exact Or.inr ⟨[], r, pre', rfl, hlook.symm ▸ rfl, htr.symm⟩
          | false =>
            rw [hbe] at hlook
            exact Or.inl hlook
        · exact Or.inr ⟨r :: pre1, r1, mid, by rw [hpre]; rfl, ha1, ht1⟩

theorem checkAndExecute_of_isSome {fs : Folder} {rs : List Rename} {dr : Bool}
    (h : (checkT fs rs []).1.isSome = true) :
    checkAndExecute fs rs dr = (checkT fs rs []).2 := by
  rcases hc : checkT fs rs [] with ⟨v, tr⟩
  cases v with
  | none => rw [hc] at h; cases h
  | some c => simp [checkAndExecute, hc]

theorem checkAndExecute_reads_of_isSome {fs : Folder} {rs : List Rename} {dr : Bool}
    (h : (checkT fs rs []).1.isSome = true) :
    ∀ op ∈ checkAndExecute fs rs dr, ∃ n, op = FsOp.existsCheck n := by
  rw [checkAndExecute_of_isSome h]
  exact checkT_trace_reads fs rs []

/-- C1: in every run of the rename pipeline the Safety Checker performs
only read-only existence checks (first conjunct, for every plan and seen
state), and the trace of the whole run is the complete check trace followed
by a tail that is empty whenever the check raised a conflict — so no
rename system call can occur before the check has walked the whole plan
and returned safely. -/
theorem rename_checks_whole_plan_before_mutation (fs : Folder)
    (M : String → Option MatchResult) (cfg : RenamerConfiguration) :
    (∀ (rs : List Rename) (seen : List (String × String)),
        ∀ op ∈ (checkT fs rs seen).2, ∃ n, op = FsOp.existsCheck n)
    ∧ ∃ post,
        renamePipeline fs M cfg
          = (checkT fs (calculate M cfg.preserve_suffix (listEntries fs cfg.show_all)) []).2
              ++ post
        ∧ ((checkT fs (calculate M cfg.preserve_suffix (listEntries fs cfg.show_all)) []).1.isSome
              = true → post = []) := by
  refine ⟨checkT_trace_reads fs, ?_⟩
  rcases hc : checkT fs (calculate M cfg.preserve_suffix (listEntries fs cfg.show_all)) []
    with ⟨v, tr⟩
  cases v with
  | some c =>
    refine ⟨[], ?_, fun _ => rfl⟩
    unfold renamePipeline checkAndExecute
    simp only [hc, List.append_nil]
  | none =>
    refine ⟨if cfg.dry_run then []
        else executeT fs (calculate M cfg.preserve_suffix (listEntries fs cfg.show_all)),
      ?_, ?_⟩
    · unfold renamePipeline checkAndExecute
      simp only [hc]
    · intro hs
      simp at hs

/-- C2, amended: over a folder in which no plan target already exists (so
that no `OverwriteExisting` conflict can mask it), a plan containing two
entries with the same target makes the Safety Checker raise a
`DuplicateTarget` conflict naming the sources of an earlier and a later
entry that both produce the reported target, and the run performs no
rename system call. -/
theorem check_duplicate_target (fs : Folder) (rs : List Rename) (dr : Bool)
    (hfs : ∀ r ∈ rs, fs.contains r.new = false)
    (i j : Nat) (hj : j < rs.length) (hij : i < j)
    (hdup : (rs.get ⟨i, Nat.lt_trans hij hj⟩).new = (rs.get ⟨j, hj⟩).new) :
    (∃ a b t pre1 r1 mid r2 post,
        (checkT fs rs []).1 = some (Conflict.duplicateTarget a b t)
        ∧ rs = pre1 ++ r1 :: (mid ++ r2 :: post)
        ∧ r1.old = a ∧ r1.new = t ∧ r2.old = b ∧ r2.new = t)
    ∧ ∀ op ∈ checkAndExecute fs rs dr, ∃ n, op = FsOp.existsCheck n := by
  have hv : (checkT fs rs []).1 ≠ none := by
    intro hnone
    obtain ⟨-, hpw, -⟩ := checkT_none_sound fs rs [] hnone
    exact (List.pairwise_iff_get.1 hpw ⟨i, Nat.lt_trans hij hj⟩ ⟨j, hj⟩ hij) hdup
  cases hvv : (checkT fs rs []).1 with
  | none => exact absurd hvv hv
  | some c =>
    have hsome : (checkT fs rs []).1.isSome = true := by rw [hvv]; rfl
    refine ⟨?_, checkAndExecute_reads_of_isSome hsome⟩
    cases c with
    | overwriteExisting t =>
      exfalso
      obtain ⟨hct, r', hr', hrt⟩ := checkT_some_overwrite fs rs [] t hvv
      have hfr := hfs r' hr'
      rw [hrt] at hfr
      rw [hfr] at hct
      cases hct
    | duplicateTarget a b t =>
      obtain ⟨pre, r2, post, hdec, hb, ht, hdisj⟩ := checkT_some_dup fs rs [] a b t hvv
      rcases hdisj with hlook | ⟨pre1, r1, mid, hpre, ha1, ht1⟩
      · rw [List.lookup_nil] at hlook; cases hlook
      · refine ⟨a, b, t, pre1, r1, mid, r2, post, rfl, ?_, ha1, ht1, hb, ht⟩
        rw [hdec, hpre]
        simp [List.append_assoc]

/-- Witness for C2 on the spec's Example 3: both `x.txt` and `y.txt`
renaming to `z.txt` in an empty folder yields a `DuplicateTarget`
conflict naming both, and the run performs only existence checks. -/
theorem check_duplicate_target_witness :
    (∃ a b t pre1 r1 mid r2 post,
        (checkT [] planDupTargets []).1 = some (Conflict.duplicateTarget a b t)
        ∧ planDupTargets = pre1 ++ r1 :: (mid ++ r2 :: post)
        ∧ r1.old = a ∧ r1.new = t ∧ r2.old = b ∧ r2.new = t)
    ∧ ∀ op ∈ checkAndExecute [] planDupTargets true, ∃ n, op = FsOp.existsCheck n :=
  check_duplicate_target [] planDupTargets true (by decide) 0 1 (by decide) (by decide)
    (by decide)

/-- C2, counterexample: when the shared target also exists in the folder,
the Safety Checker reports `OverwriteExisting` and never `DuplicateTarget`,
although the plan contains two entries with equal targets: both `x.txt` and
`y.txt` rename to `z.txt` and `z.txt` already exists. -/
theorem check_duplicate_target_cex :
    (checkT ["z.txt"] planDupTargets []).1 = some (Conflict.overwriteExisting "z.txt")
    ∧ ∀ a b t, (checkT ["z.txt"] planDupTargets []).1
        ≠ some (Conflict.duplicateTarget a b t) := by
  have h1 : (checkT ["z.txt"] planDupTargets []).1
      = some (Conflict.overwriteExisting "z.txt") := by decide
  refine ⟨h1, ?_⟩
  intro a b t h
  rw [h1] at h
  simp at h

/-- C3, amended: for a plan with pairwise-distinct targets (so that no
earlier `DuplicateTarget` conflict can mask it), an entry whose target is
a pre-existing folder entry different from its own source makes the
Safety Checker raise an `OverwriteExisting` conflict for a genuinely
existing plan target, and the run performs no rename system call. -/
theorem check_overwrite_existing (fs : Folder) (rs : List Rename) (dr : Bool)
    (hpw : List.Pairwise (fun a b : Rename => a.new ≠ b.new) rs)
    (r : Rename) (hr : r ∈ rs) (hex : fs.contains r.new = true) (hsrc : r.new ≠ r.old) :
    (∃ t, (checkT fs rs []).1 = some (Conflict.overwriteExisting t)
        ∧ fs.contains t = true ∧ ∃ r' ∈ rs, r'.new = t)
    ∧ ∀ op ∈ checkAndExecute fs rs dr, ∃ n, op = FsOp.existsCheck n := by
  have hv : (checkT fs rs []).1 ≠ none := by
    intro hnone
    obtain ⟨h1, -, -⟩ := checkT_none_sound fs rs [] hnone
    rw [h1 r hr] at hex
    cases hex
  cases hvv : (checkT fs rs []).1 with
  | none => exact absurd hvv hv
  | some c =>
    have hsome : (checkT fs rs []).1.isSome = true := by rw [hvv]; rfl
    refine ⟨?_, checkAndExecute_reads_of_isSome hsome⟩
    cases c with
    | overwriteExisting t =>
      obtain ⟨hct, r', hr', hrt⟩ := checkT_some_overwrite fs rs [] t hvv
      exact ⟨t, rfl, hct, r', hr', hrt⟩
    | duplicateTarget a b t =>
      exfalso
      obtain ⟨pre, r2, post, hdec, hb, ht, hdisj⟩ := checkT_some_dup fs rs [] a b t hvv
      rcases hdisj with hlook | ⟨pre1, r1, mid, hpre, ha1, ht1⟩
      · rw [List.lookup_nil] at hlook; cases hlook
      · have hdec2 : rs = pre1 ++ r1 :: (mid ++ r2 :: post) := by
          rw [hdec, hpre]
          simp [List.append_assoc]
        rw [hdec2] at hpw
        have hpw2 := (List.pairwise_append.1 hpw).2.1
        have hne := (List.pairwise_cons.1 hpw2).1 r2
          (List.mem_append.2 (Or.inr (List.mem_cons_self _ _)))
        rw [ht1, ht] at hne
        exact hne rfl

/-- Witness for C3: renaming `c.txt` to the pre-existing `w.txt` yields
an `OverwriteExisting` conflict and only existence checks. -/
theorem check_overwrite_existing_witness :
    (∃ t, (checkT ["w.txt"] planOverwrite []).1 = some (Conflict.overwriteExisting t)
        ∧ List.contains ["w.txt"] t = true ∧ ∃ r' ∈ planOverwrite, r'.new = t)
    ∧ ∀ op ∈ checkAndExecute ["w.txt"] planOverwrite true, ∃ n, op = FsOp.existsCheck n :=
  check_overwrite_existing ["w.txt"] planOverwrite true (by decide)
    ⟨"c.txt", "w.txt", 0, 0, ""⟩ (by decide) (by decide) (by decide)

/-- C3, counterexample: a plan in which the third entry's target `w.txt`
is a pre-existing entry distinct from its source, yet the Safety Checker
reports the earlier `DuplicateTarget` conflict on `z` and never an
`OverwriteExisting` verdict. -/
theorem check_overwrite_existing_cex :
    (checkT ["w.txt"] planMaskedOverwrite []).1
      = some (Conflict.duplicateTarget "a" "b" "z")
    ∧ ∀ t, (checkT ["w.txt"] planMaskedOverwrite []).1
        ≠ some (Conflict.overwriteExisting t) := by
  have h1 : (checkT ["w.txt"] planMaskedOverwrite []).1
      = some (Conflict.duplicateTarget "a" "b" "z") := by decide
  refine ⟨h1, ?_⟩
  intro t h
  rw [h1] at h
  simp at h

/-- C4, counterexample: on a plan with two independent duplicate-target
conflicts the exhaustive report the spec describes holds two conflicts,
but the report `Renamer.check` produces holds only the first one — fewer
than the two the claim requires. -/
theorem check_not_exhaustive_cex :
    2 ≤ (specExhaustiveConflicts [] planTwoConflicts []).length
      ∧ ¬ 2 ≤ (reportedConflicts [] planTwoConflicts).length := by decide

/-- C4, amended: on any plan with at least one conflict the Safety
Checker reports exactly one conflict — the first it encounters in plan
order — rather than all of them, and it still aborts before any rename
system call. -/
theorem check_reports_first_conflict_only (fs : Folder) (rs : List Rename) (dr : Bool)
    (h : ¬ ((∀ r ∈ rs, fs.contains r.new = false)
        ∧ List.Pairwise (fun a b : Rename => a.new ≠ b.new) rs)) :
    (∃ c, (checkT fs rs []).1 = some c ∧ reportedConflicts fs rs = [c])
    ∧ ∀ op ∈ checkAndExecute fs rs dr, ∃ n, op = FsOp.existsCheck n := by
  have hv : (checkT fs rs []).1 ≠ none := by
    intro hnone
    obtain ⟨h1, h2, -⟩ := checkT_none_sound fs rs [] hnone
    exact h ⟨h1, h2⟩
  cases hvv : (checkT fs rs []).1 with
  | none => exact absurd hvv hv
  | some c =>
    have hsome : (checkT fs rs []).1.isSome = true := by rw [hvv]; rfl
    refine ⟨⟨c, rfl, ?_⟩, checkAndExecute_reads_of_isSome hsome⟩
    unfold reportedConflicts
    rw [hvv]

/-- Witness for C4 on the two-conflict plan: one conflict is reported and
the run performs only existence checks. -/
theorem check_reports_first_conflict_only_witness :
    (∃ c, (checkT [] planTwoConflicts []).1 = some c
        ∧ reportedConflicts [] planTwoConflicts = [c])
    ∧ ∀ op ∈ checkAndExecute [] planTwoConflicts true, ∃ n, op = FsOp.existsCheck n :=
  check_reports_first_conflict_only [] planTwoConflicts true (by decide)


theorem calculate_nil (M : String → Option MatchResult) (psfx : Bool) :
    calculate M psfx [] = [] := rfl

theorem calculate_cons_none {M : String → Option MatchResult} {psfx : Bool} {name : String}
    (rest : List String) (h : M (if psfx then pathStem name else name) = none) :
    calculate M psfx (name :: rest) = calculate M psfx rest := by
  simp only [calculate, h]

theorem calculate_cons_skip {M : String → Option MatchResult} {psfx : Bool} {name : String}
    {m : MatchResult} (rest : List String) (h : M (if psfx then pathStem name else name) = some m)
    (heq : name = newName (if psfx then pathStem name else name)
      (if psfx then pathSuffix name else "") m) :
    calculate M psfx (name :: rest) = calculate M psfx rest := by
  simp only [calculate, h]
  rw [if_pos heq]

theorem calculate_cons_new {M : String → Option MatchResult} {psfx : Bool} {name : String}
    {m : MatchResult} (rest : List String) (h : M (if psfx then pathStem name else name) = some m)
    (hne : ¬ name = newName (if psfx then pathStem name else name)
      (if psfx then pathSuffix name else "") m) :
    calculate M psfx (name :: rest)
      = ⟨name,
         newName (if psfx then pathStem name else name)
           (if psfx then pathSuffix name else "") m,
         m.start, m.stop, m.replaced⟩ :: calculate M psfx rest := by
  simp only [calculate, h]
  rw [if_neg hne]

theorem calculate_mem_sound (M : String → Option MatchResult) (psfx : Bool) :
    ∀ (paths : List String), ∀ r ∈ calculate M psfx paths,
    ∃ name m, name ∈ paths ∧ r.old = name
      ∧ M (if psfx then pathStem name else name) = some m
      ∧ r.new = newName (if psfx then pathStem name else name)
          (if psfx then pathSuffix name else "") m
      ∧ r.match_start = m.start ∧ r.match_end = m.stop ∧ r.replaced = m.replaced := by
  intro paths
  induction paths with
  | nil => intro r hr; rw [calculate_nil] at hr; cases hr
  | cons p rest ih =>
    intro r hr
    cases hM : M (if psfx then pathStem p else p) with
    | none =>
      rw [calculate_cons_none rest hM] at hr
      obtain ⟨name, m, hmem, hrest⟩ := ih r hr
      exact ⟨name, m, List.mem_cons_of_mem _ hmem, hrest⟩
    | some m =>
      by_cases heq : p = newName (if psfx then pathStem p else p)
          (if psfx then pathSuffix p else "") m
      · rw [calculate_cons_skip rest hM heq] at hr
        obtain ⟨name, m', hmem, hrest⟩ := ih r hr
        exact ⟨name, m', List.mem_cons_of_mem _ hmem, hrest⟩
      · rw [calculate_cons_new rest hM heq] at hr
        rcases List.mem_cons.1 hr with rfl | hr'
        · exact ⟨p, m, List.mem_cons_self _ _, rfl, hM, rfl, rfl, rfl, rfl⟩
        · obtain ⟨name, m', hmem, hrest⟩ := ih r hr'
          exact ⟨name, m', List.mem_cons_of_mem _ hmem, hrest⟩

theorem imgSearch_leftmost : ∀ (cs : List Char) (i : Nat) (m : MatchResult),
    imgSearch i cs = some m →
    ∃ k, m.start = i + k ∧ (∀ j, j < k → tryMatchAt (cs.drop j) = none)
      ∧ (tryMatchAt (cs.drop k)).isSome = true := by
  intro cs
  induction cs with
  | nil => intro i m h; cases h
  | cons c cs' ih =>
    intro i m h
    cases ht : tryMatchAt (c :: cs') with
    | some lds =>
      simp only [imgSearch, ht, Option.some.injEq] at h
      subst h
      refine ⟨0, rfl, ?_, ?_⟩
      · intro j hj
        exact absurd hj (Nat.not_lt_zero j)
      · rw [List.drop_zero, ht]; rfl
    | none =>
      simp only [imgSearch, ht] at h
      obtain ⟨k, hk1, hk2, hk3⟩ := ih (i + 1) m h
      refine ⟨k + 1, by omega, ?_, ?_⟩
      · intro j hj
        cases j with
        | zero => rw [List.drop_zero]; exact ht
        | succ j' =>
          show tryMatchAt (cs'.drop j') = none
          exact hk2 j' (by omega)
      · show (tryMatchAt (cs'.drop k)).isSome = true
        exact hk3

/-- C9: an item appears in the plan `Renamer.calculate` builds exactly when
the search matches its (optionally suffix-stripped) name and the resulting
new name differs from the current name; unmatched items and no-op renames
are silently excluded. On the concrete pattern `IMG_(\d+)` with template
`Photo_\1` over the folder of the spec's Example 2, the plan is exactly
the two photo renames, with `notes.txt` excluded. -/
theorem plan_membership_iff (M : String → Option MatchResult) (psfx : Bool) :
    (∀ (paths : List String) (name : String),
      (∃ r ∈ calculate M psfx paths, r.old = name) ↔
        (name ∈ paths ∧ ∃ m, M (if psfx then pathStem name else name) = some m
          ∧ newName (if psfx then pathStem name else name)
              (if psfx then pathSuffix name else "") m ≠ name))
    ∧ calculate imgMatcher true ["IMG_001.jpg", "IMG_002.jpg", "notes.txt"]
        = [⟨"IMG_001.jpg", "Photo_001.jpg", 0, 7, "Photo_001"⟩,
           ⟨"IMG_002.jpg", "Photo_002.jpg", 0, 7, "Photo_002"⟩] := by
  refine ⟨?_, by decide⟩
  intro paths name
  induction paths with
  | nil =>
    rw [calculate_nil]
    constructor
    · rintro ⟨r, hr, -⟩; cases hr
    · rintro ⟨hmem, -⟩; cases hmem
  | cons p rest ih =>
    cases hM : M (if psfx then pathStem p else p) with
    | none =>
      rw [calculate_cons_none rest hM]
      constructor
      · intro h
        obtain ⟨hmem, hP⟩ := ih.1 h
        exact ⟨List.mem_cons_of_mem _ hmem, hP⟩
      · rintro ⟨hmem, m, hm, hne⟩
        rcases List.mem_cons.1 hmem with rfl | hmem'
        · rw [hM] at hm; cases hm
        · exact ih.2 ⟨hmem', m, hm, hne⟩
    | some m =>
      by_cases heq : p = newName (if psfx then pathStem p else p)
          (if psfx then pathSuffix p else "") m
      · rw [calculate_cons_skip rest hM heq]
        constructor
        · intro h
          obtain ⟨hmem, hP⟩ := ih.1 h
          exact ⟨List.mem_cons_of_mem _ hmem, hP⟩
        · rintro ⟨hmem, m', hm', hne'⟩
          rcases List.mem_cons.1 hmem with rfl | hmem'
          · rw [hM] at hm'
            have hm'' : m = m' := by injection hm'
            rw [← hm''] at hne'
            exact absurd heq.symm hne'
          · exact ih.2 ⟨hmem', m', hm', hne'⟩
      · rw [calculate_cons_new rest hM heq]
        constructor
        · rintro ⟨r, hr, hold⟩
          rcases List.mem_cons.1 hr with rfl | hr'
          · refine ⟨?_, m, ?_, ?_⟩
            · rw [← hold]; exact List.mem_cons_self _ _
            · rw [← hold]; exact hM
            · rw [← hold]
              intro hcon
              exact heq hcon.symm
          · obtain ⟨hmem, hP⟩ := ih.1 ⟨r, hr', hold⟩
            exact ⟨List.mem_cons_of_mem _ hmem, hP⟩
        · rintro ⟨hmem, m', hm', hne'⟩
          rcases List.mem_cons.1 hmem with rfl | hmem'
          · exact ⟨⟨name,
              newName (if psfx then pathStem name else name)
                (if psfx then pathSuffix name else "") m,
              m.start, m.stop, m.replaced⟩, List.mem_cons_self _ _, rfl⟩
          · obtain ⟨r, hr, hold⟩ := ih.2 ⟨hmem', m', hm', hne'⟩
            exact ⟨r, List.mem_cons_of_mem _ hr, hold⟩

/-- C10: every plan entry `Renamer.calculate` produces replaces exactly
the span of the one match the search returned — its new name is the text
before the match, the expanded replacement and the text after the match
plus the preserved suffix, verbatim (first conjunct); the concrete
`IMG_(\d+)` matcher returns the leftmost match: no earlier position of
the haystack matches (second conjunct); and on `IMG_1_IMG_2.jpg`, where
the pattern matches at two positions, only the first occurrence is
replaced (third conjunct). -/
theorem pattern_replaces_first_match_only (M : String → Option MatchResult) (psfx : Bool)
    (paths : List String) :
    (∀ r ∈ calculate M psfx paths, ∃ name mr, name ∈ paths ∧ r.old = name
        ∧ M (if psfx then pathStem name else name) = some mr
        ∧ r.new = newName (if psfx then pathStem name else name)
            (if psfx then pathSuffix name else "") mr
        ∧ r.match_start = mr.start ∧ r.match_end = mr.stop ∧ r.replaced = mr.replaced)
    ∧ (∀ (s : String) (mr : MatchResult), imgMatcher s = some mr →
        (∀ j, j < mr.start → tryMatchAt (s.data.drop j) = none)
          ∧ (tryMatchAt (s.data.drop mr.start)).isSome = true)
    ∧ calculate imgMatcher true ["IMG_1_IMG_2.jpg"]
        = [⟨"IMG_1_IMG_2.jpg", "Photo_1_IMG_2.jpg", 0, 5, "Photo_1"⟩] := by
  refine ⟨calculate_mem_sound M psfx paths, ?_, by decide⟩
  intro s mr h
  obtain ⟨k, hk1, hk2, hk3⟩ := imgSearch_leftmost s.data 0 mr h
  have hk0 : k = mr.start := by omega
  subst hk0
  exact ⟨fun j hj => hk2 j hj, hk3⟩

end Rerename

end Cantrips
